import Mathlib

/-!
Shallow embedding of the metadata-reconciliation core of `booktool`
(`booktool/util.py`, `booktool/audio/track.py`, `booktool/audio/group.py`),
together with theorems checking the specification's claims about it.

Strings are embedded as `List Char`; Python `int` values as `Int`;
Python's `None` as `Option.none`; raised exceptions as `Except Err`.
-/

deriving instance DecidableEq for Except

namespace Booktool

/-- Errors raised by the booktool core (each constructor models one raise site). -/
inductive Err where
  /-- `ValueError` from `int()` in `Part.from_string` (spec: `ParseError`). -/
  | parseError
  /-- `ValueError("Cannot merge with conflicts (index)")` in `Part.merge`. -/
  | conflictIndex
  /-- `ValueError("Cannot merge with conflicts (total)")` in `Part.merge`. -/
  | conflictTotal
  /-- `ValueError("Too many trkn tags")` in `get_track_mp4`/`set_track_mp4` (spec: `FormatError`). -/
  | formatError
  /-- `TypeError` from `Part(*trkn)` applied to a tuple of more than 2 components. -/
  | typeError
  /-- `ValueError` from the exactly-one unpacking `disk, = ...` in `get_disc_mp4`. -/
  | unpackError
  /-- `ValueError("Cannot read/infer Part ...")` in `get_track_*` (spec: `IncompleteError`). -/
  | incompleteError
  /-- `KeyError` from `disc_increments[track_disc]` in `flatten_discs`. -/
  | keyError
  /-- `AssertionError` from the final grammar check in `sanitize` (spec: `SanitizationError`). -/
  | sanitizationError
deriving DecidableEq, Repr

/-- Python truthiness of an optional integer: `None` and `0` are falsy. -/
def truthy : Option Int → Bool
  | none => false
  | some n => n ≠ 0

/-- `booktool.audio.track.Part`: an (index, total) pair with optional fields. -/
structure Part where
  index : Option Int
  total : Option Int
deriving DecidableEq, Repr

/-! ### Python `int()` parsing and decimal printing

`Part.from_string` calls Python's `int()` on each segment.  `int(s)` strips
surrounding whitespace, accepts an optional sign, and then a nonempty run of
decimal digits in which single underscores may appear between digits.
-/

/-- Characters matched by Python's whitespace stripping / `\s` (ASCII fragment). -/
def isWS (c : Char) : Bool :=
  c.toNat = 32 || (9 ≤ c.toNat && c.toNat ≤ 13) || (28 ≤ c.toNat && c.toNat ≤ 31)

/-- Decimal digit characters `0`-`9`. -/
def isDigitCh (c : Char) : Bool := 48 ≤ c.toNat && c.toNat ≤ 57

/-- Numeric value of a digit character. -/
def digitVal (c : Char) : Nat := c.toNat - 48

/-- After the first digit, Python's integer literal body is `(["_"] digit)*`. -/
def digitTail : List Char → Bool
  | [] => true
  | c :: rest =>
    if c.toNat = 95 then
      match rest with
      | d :: rest' => isDigitCh d && digitTail rest'
      | [] => false
    else isDigitCh c && digitTail rest

/-- Python's `digitpart` grammar: `digit (["_"] digit)*`. -/
def isDigitPart : List Char → Bool
  | [] => false
  | c :: rest => isDigitCh c && digitTail rest

/-- Value of a digit string, most significant digit first. -/
def digitsVal (l : List Char) : Nat := l.foldl (fun acc c => acc * 10 + digitVal c) 0

/-- Value of a digit string after discarding the legal grouping underscores. -/
def intOfDigits (l : List Char) : Int :=
  (digitsVal (l.filter (fun c => c.toNat ≠ 95)) : Nat)

/-- Strip leading and trailing whitespace, as `int()` does before parsing. -/
def stripWSBoth (l : List Char) : List Char :=
  ((l.dropWhile isWS).reverse.dropWhile isWS).reverse

/-- Python `int()` on a whitespace-stripped string: optional sign, then digits. -/
def pyIntCore : List Char → Option Int
  | [] => none
  | c :: rest =>
    if c.toNat = 43 then
      if isDigitPart rest then some (intOfDigits rest) else none
    else if c.toNat = 45 then
      if isDigitPart rest then some (-(intOfDigits rest)) else none
    else
      if isDigitPart (c :: rest) then some (intOfDigits (c :: rest)) else none

/-- Python `int(string)`: `some` its value, or `none` when `int` raises `ValueError`. -/
def pyInt (l : List Char) : Option Int := pyIntCore (stripWSBoth l)

/-- The decimal digit character for `n < 10`. -/
def digitChar : Nat → Char
  | 0 => '0' | 1 => '1' | 2 => '2' | 3 => '3' | 4 => '4'
  | 5 => '5' | 6 => '6' | 7 => '7' | 8 => '8' | _ => '9'

/-- Fuel-driven digit expansion (structural recursion so the kernel can evaluate it). -/
def natToDigitsGo : Nat → Nat → List Char
  | 0, _ => []
  | fuel + 1, n =>
    if n < 10 then [digitChar n] else natToDigitsGo fuel (n / 10) ++ [digitChar (n % 10)]

/-- Decimal digits of a natural number, most significant first (Python `str(n)` for `n ≥ 0`). -/
def natToDigits (n : Nat) : List Char := natToDigitsGo (n + 1) n

/-- Python `str(i)` for an integer, as produced by the f-string `f"{i}/{t}"`. -/
def pyStrInt : Int → List Char
  | .ofNat n => natToDigits n
  | .negSucc m => '-' :: natToDigits (m + 1)

/-- Python `str(v)` for an optional integer (`None` prints as `None`),
as used by `set_track_mp3`'s f-string `f"{index}/{total}"`. -/
def pyShow : Option Int → List Char
  | none => ['N', 'o', 'n', 'e']
  | some n => pyStrInt n

/-! ### `Part.from_string` and `Part.merge` (`booktool/audio/track.py`) -/

/-- One segment of the `"N/M"` syntax: empty means absent, otherwise `int()` parses it. -/
def parseSeg (s : List Char) : Except Err (Option Int) :=
  if s.isEmpty then .ok none
  else
    match pyInt s with
    | some n => .ok (some n)
    | none => .error .parseError

/-- `Part.from_string`: split on the first `/` (absent separator: the whole
string is the index and the total segment is empty), then parse each segment. -/
def Part.from_string (string : List Char) : Except Err Part := do
  let index_string := string.takeWhile (fun c => c ≠ '/')
  let total_string := (string.dropWhile (fun c => c ≠ '/')).tail
  let index ← parseSeg index_string
  let total ← parseSeg total_string
  pure ⟨index, total⟩

/-- Python's `x or y` on optional integers: `y` when `x` is falsy (`None` or `0`). -/
def pyOr (x y : Option Int) : Option Int := if truthy x then x else y

/-- `Part.merge`: prefer `self` to `other` treating 0 like `None`; when
`raise_on_conflicts`, fail if a truthy `other` field differs from the result. -/
def Part.merge (self other : Part) (raise_on_conflicts : Bool) : Except Err Part :=
  let index := pyOr self.index other.index
  let total := pyOr self.total other.total
  if raise_on_conflicts then
    if truthy other.index && index ≠ other.index then .error .conflictIndex
    else if truthy other.total && total ≠ other.total then .error .conflictTotal
    else .ok ⟨index, total⟩
  else .ok ⟨index, total⟩

/-! ### The name sanitizer (`booktool/util.py`)

The embedding covers ASCII inputs: on ASCII, step 1 of `sanitize`
(`unicodedata.normalize("NFKD", ...)` followed by dropping combining marks)
is the identity, so it is not represented; the remaining steps are the
regex pipeline modelled below, in source order.
-/

/-- `[0-9A-Za-z]`, the alphanumeric class used by `is_sanitized`. -/
def isAlnumCh (c : Char) : Bool :=
  (48 ≤ c.toNat && c.toNat ≤ 57) || (65 ≤ c.toNat && c.toNat ≤ 90) ||
    (97 ≤ c.toNat && c.toNat ≤ 122)

/-- `[A-Za-z]`. -/
def isLetterCh (c : Char) : Bool :=
  (65 ≤ c.toNat && c.toNat ≤ 90) || (97 ≤ c.toNat && c.toNat ≤ 122)

/-- `[A-Z]`. -/
def isUpperCh (c : Char) : Bool := 65 ≤ c.toNat && c.toNat ≤ 90

/-- Regex word characters `\w` (ASCII): `[0-9A-Za-z_]`, for `\b` boundaries. -/
def isWordCh (c : Char) : Bool := isAlnumCh c || c.toNat = 95

/-- `string.punctuation`: ASCII 33-47, 58-64, 91-96, 123-126. -/
def isPunctCh (c : Char) : Bool :=
  (33 ≤ c.toNat && c.toNat ≤ 47) || (58 ≤ c.toNat && c.toNat ≤ 64) ||
    (91 ≤ c.toNat && c.toNat ≤ 96) || (123 ≤ c.toNat && c.toNat ≤ 126)

/-- A `\b` boundary right before a word character, given the previous character. -/
def atBoundary : Option Char → Bool
  | none => true
  | some prev => !isWordCh prev

/-- `re.sub(r"\b([A-Z])(\. ?| )", r"\1 ", ...)`: drop periods after initials,
ensuring a space follows.  `prev` is the original character before the scan
position (for the word-boundary test).  The fuel argument (one unit per
consumed character, so the input length suffices) makes the recursion
structural and kernel-computable. -/
def subInitials : Nat → Option Char → List Char → List Char
  | 0, _, l => l
  | _ + 1, _, [] => []
  | fuel + 1, prev, c :: rest =>
    if atBoundary prev && isUpperCh c then
      match rest with
      | '.' :: ' ' :: rest' => c :: ' ' :: subInitials fuel (some ' ') rest'
      | '.' :: rest' => c :: ' ' :: subInitials fuel (some '.') rest'
      | ' ' :: rest' => c :: ' ' :: subInitials fuel (some ' ') rest'
      | _ => c :: subInitials fuel (some c) rest
    else c :: subInitials fuel (some c) rest

/-- `re.sub(r"\s*[S]\s*", repl, ...)` for a separator class `isSym`:
models steps 3 (`[&+]` to `" and "`), 4 (`@` to `" at "`) and
6 (`[!.:;?]` to `"-"`) of the pipeline. -/
def subSep (isSym : Char → Bool) (repl : List Char) : Nat → List Char → List Char
  | 0, l => l
  | _ + 1, [] => []
  | fuel + 1, c :: rest =>
    if isSym c then repl ++ subSep isSym repl fuel (rest.dropWhile isWS)
    else if isWS c then
      match rest.dropWhile isWS with
      | d :: rest' =>
        if isSym d then repl ++ subSep isSym repl fuel (rest'.dropWhile isWS)
        else c :: subSep isSym repl fuel rest
      | [] => c :: subSep isSym repl fuel rest
    else c :: subSep isSym repl fuel rest

/-- The `[&+]` class of step 3. -/
def isAmpCh (c : Char) : Bool := c.toNat = 38 || c.toNat = 43

/-- The `@` class of step 4. -/
def isAtCh (c : Char) : Bool := c.toNat = 64

/-- The `[!.:;?]` class of step 6. -/
def isSepPunctCh (c : Char) : Bool :=
  c.toNat = 33 || c.toNat = 46 || c.toNat = 58 || c.toNat = 59 || c.toNat = 63

/-- `re.sub(r"([A-Za-z])[-']([A-Za-z])", r"\1\2", ...)`: join hyphenated words
and contractions (step 5). -/
def subJoin : List Char → List Char
  | a :: b :: c :: rest =>
    if isLetterCh a && (b.toNat = 45 || b.toNat = 39) && isLetterCh c then
      a :: c :: subJoin rest
    else a :: subJoin (b :: c :: rest)
  | l => l

/-- `re.sub(r"\s*\(([^)]*)\)\s*", r"-\1-", ...)` (and the `[...]` variant):
turn a bracketed span into a hyphen-delimited inline span (step 7). -/
def subBrack (oc cc : Char) : Nat → List Char → List Char
  | 0, l => l
  | _ + 1, [] => []
  | fuel + 1, c :: rest =>
    if c = oc then
      match rest.dropWhile (fun x => x ≠ cc) with
      | _ :: rest' =>
        '-' :: (rest.takeWhile (fun x => x ≠ cc) ++
          '-' :: subBrack oc cc fuel (rest'.dropWhile isWS))
      | [] => c :: subBrack oc cc fuel rest
    else if isWS c then
      match rest.dropWhile isWS with
      | d :: rest2 =>
        if d = oc then
          match rest2.dropWhile (fun x => x ≠ cc) with
          | _ :: rest3 =>
            '-' :: (rest2.takeWhile (fun x => x ≠ cc) ++
              '-' :: subBrack oc cc fuel (rest3.dropWhile isWS))
          | [] => c :: subBrack oc cc fuel rest
        else c :: subBrack oc cc fuel rest
      | [] => c :: subBrack oc cc fuel rest
    else c :: subBrack oc cc fuel rest

/-- The `["$%',]` class of step 8. -/
def isOtherPunctCh (c : Char) : Bool :=
  c.toNat = 34 || c.toNat = 36 || c.toNat = 37 || c.toNat = 39 || c.toNat = 44

/-- `re.sub(r"""["$%',]""", r" ", ...)`: remaining punctuation to a space (step 8). -/
def subOther (l : List Char) : List Char :=
  l.map fun c => if isOtherPunctCh c then ' ' else c

/-- `re.sub(r"\s+", r"_", ...)`: each whitespace run to one underscore (step 9). -/
def subWhitespace : Nat → List Char → List Char
  | 0, l => l
  | _ + 1, [] => []
  | fuel + 1, c :: rest =>
    if isWS c then '_' :: subWhitespace fuel (rest.dropWhile isWS)
    else c :: subWhitespace fuel rest

/-- `string.strip(punctuation)`: drop leading and trailing punctuation (step 10). -/
def stripPunct (l : List Char) : List Char :=
  ((l.dropWhile isPunctCh).reverse.dropWhile isPunctCh).reverse

/-- The character class `[-0-9A-Za-z_]` of `is_sanitized`'s inner part. -/
def isNameCh (c : Char) : Bool := c.toNat = 45 || c.toNat = 95 || isAlnumCh c

/-- Matcher for `[-0-9A-Za-z_]+[0-9A-Za-z]`: one or more name characters
followed by a final alphanumeric. -/
def innerMatch : List Char → Bool
  | [] => false
  | [_] => false
  | [m, l] => isNameCh m && isAlnumCh l
  | m :: rest => isNameCh m && innerMatch rest

/-- `is_sanitized`: `re.fullmatch(r"[0-9A-Za-z][-0-9A-Za-z_]+[0-9A-Za-z]", ...)`. -/
def is_sanitized : List Char → Bool
  | [] => false
  | c :: rest => isAlnumCh c && innerMatch rest

/-- Modelled from the spec (§6): the accepted-name grammar as the spec words it,
`[alnum] ([-_alnum])* [alnum]` with minimum length 2 (for comparison with the
source's `is_sanitized`). -/
def specInner : List Char → Bool
  | [] => false
  | [l] => isAlnumCh l
  | m :: rest => isNameCh m && specInner rest

/-- Modelled from the spec (§6): full accepted-name grammar, minimum length 2. -/
def specGrammar : List Char → Bool
  | [] => false
  | c :: rest => isAlnumCh c && specInner rest

/-- The sanitize pipeline, steps 2-10 in source order (step 1 is the identity
on the ASCII fragment embedded here).  Each stage gets its input length as
fuel, which is always enough since every recursive step consumes a character. -/
def pipeline (l : List Char) : List Char :=
  let s2 := subInitials l.length none l
  let s3 := subSep isAmpCh [' ', 'a', 'n', 'd', ' '] s2.length s2
  let s4 := subSep isAtCh [' ', 'a', 't', ' '] s3.length s3
  let s5 := subJoin s4
  let s6 := subSep isSepPunctCh ['-'] s5.length s5
  let s7 := subBrack '(' ')' s6.length s6
  let s7b := subBrack '[' ']' s7.length s7
  let s8 := subOther s7b
  let s9 := subWhitespace s8.length s8
  stripPunct s9

/-- `sanitize`: run the pipeline, then `assert is_sanitized(result)`. -/
def sanitize (l : List Char) : Except Err (List Char) :=
  if is_sanitized (pipeline l) then .ok (pipeline l) else .error .sanitizationError

/-- Whether a letter-hyphen-letter or letter-apostrophe-letter triple occurs
(the pattern rewritten by step 5). -/
def hasJoinTriple : List Char → Bool
  | a :: b :: c :: rest =>
    (isLetterCh a && (b.toNat = 45 || b.toNat = 39) && isLetterCh c) ||
      hasJoinTriple (b :: c :: rest)
  | _ => false

/-! ### Tag containers and track/disc read-write (`booktool/audio/track.py`)

Container I/O (mutagen) is external to the core; a file is modelled by the tag
state the source reads and writes: for MP3, the `TRCK`/`TPOS` frame texts and
the ID3 version; for MP4, the `trkn`/`disk` integer-tuple tag lists.  `fsPart`
stands for the result of `Part.from_path(file.filename)` (the
filesystem-inferred part, a directory listing made outside the core), and
`saves` counts `file.save()` calls.
-/

inductive TagFile where
  /-- An MP3/ID3 container: optional `TRCK` and `TPOS` frame texts, ID3 version. -/
  | mp3 (TRCK : Option (List Char)) (TPOS : Option (List Char)) (version : Nat × Nat)
  /-- An MP4 container: the `trkn` and `disk` tag lists of integer tuples. -/
  | mp4 (trkn : List (List (Option Int))) (disk : List (List (Option Int)))
deriving DecidableEq, Repr

structure AudioFile where
  tags : TagFile
  fsPart : Part
  saves : Nat
deriving DecidableEq, Repr

/-- `Part(*entry)`: build a `Part` from a tag tuple; more than 2 components
is a `TypeError`. -/
def partOfTuple : List (Option Int) → Except Err Part
  | [] => .ok ⟨none, none⟩
  | [i] => .ok ⟨i, none⟩
  | [i, t] => .ok ⟨i, t⟩
  | _ => .error .typeError

/-- `trkn, *trkns = file.tags.get("trkn", []) or [(0, 0)]`; fail if more than
one tag instance remains, else `Part(*trkn)`. -/
def readTrkn (trkn : List (List (Option Int))) : Except Err Part :=
  match (if trkn.isEmpty then [[some 0, some 0]] else trkn) with
  | [] => .error .formatError
  | entry :: rest => if rest.isEmpty then partOfTuple entry else .error .formatError

/-- The embedded-metadata `Part` of a file: the container-specific extraction
at the start of `get_track_mp3` (`Part.from_string(str(tags.get("TRCK", "")))`)
and `get_track_mp4` (the `trkn` handling). -/
def trackTagPart (f : AudioFile) : Except Err Part :=
  match f.tags with
  | .mp3 TRCK _ _ => Part.from_string (TRCK.getD [])
  | .mp4 trkn _ => readTrkn trkn

/-- `get_track` (`get_track_mp3`/`get_track_mp4`): extract the metadata part,
merge it with the filesystem part (raising on conflicts unless
`ignore_conflicts`), and require both merged fields present. -/
def get_track (f : AudioFile) (ignore_conflicts : Bool) : Except Err Part := do
  let metadata ← trackTagPart f
  let part ← metadata.merge f.fsPart (!ignore_conflicts)
  if part.index = none ∨ part.total = none then .error .incompleteError
  else pure part

/-- `get_disc` (`get_disc_mp3`: `Part.from_string(str(tags.get("TPOS", "")))`;
`get_disc_mp4`: `disk, = tags.get("disk", [(0, 0)]); Part(*disk)`). -/
def get_disc (f : AudioFile) : Except Err Part :=
  match f.tags with
  | .mp3 _ TPOS _ => Part.from_string (TPOS.getD [])
  | .mp4 _ disk =>
    match (if disk.isEmpty then [[some 0, some 0]] else disk) with
    | [entry] => partOfTuple entry
    | _ => .error .unpackError

/-- `set_track` (`set_track_mp3`/`set_track_mp4`): build the native tag value,
return without saving when the container already holds it, otherwise store it
and save unless `dry_run`.  (`set_track_mp3`'s ID3 version-upgrade computation
only affects the `v2_version` argument passed to the external save, not the
tag state modelled here.) -/
def set_track (f : AudioFile) (part : Part) (dry_run : Bool) : Except Err AudioFile :=
  match f.tags with
  | .mp3 TRCK TPOS version =>
    let text := pyShow part.index ++ '/' :: pyShow part.total
    match TRCK with
    | some existing =>
      if existing = text then .ok f
      else
        .ok { f with
          tags := .mp3 (some text) TPOS version
          saves := f.saves + (if dry_run then 0 else 1) }
    | none =>
      .ok { f with
        tags := .mp3 (some text) TPOS version
        saves := f.saves + (if dry_run then 0 else 1) }
  | .mp4 trkn disk =>
    if trkn.length > 1 then .error .formatError
    else
      let newTrkn := [[part.index, part.total]]
      if trkn ≠ [] ∧ trkn = newTrkn then .ok f
      else
        .ok { f with
          tags := .mp4 newTrkn disk
          saves := f.saves + (if dry_run then 0 else 1) }

/-- `del_disc` (`del_disc_mp3`/`del_disc_mp4`): delete the disc tag and save. -/
def del_disc (f : AudioFile) (dry_run : Bool) : AudioFile :=
  match f.tags with
  | .mp3 TRCK _ version =>
    { f with
      tags := .mp3 TRCK none version
      saves := f.saves + (if dry_run then 0 else 1) }
  | .mp4 trkn _ =>
    { f with
      tags := .mp4 trkn []
      saves := f.saves + (if dry_run then 0 else 1) }

/-- Whether no disc tag remains in the container. -/
def discRemoved (f : AudioFile) : Bool :=
  match f.tags with
  | .mp3 _ TPOS _ => TPOS.isNone
  | .mp4 _ disk => disk.isEmpty

/-! ### Disc flattening (`booktool/audio/group.py`) -/

/-- Sequential effectful map: Python's left-to-right evaluation of
`list(map(...))` / `for` loops, stopping at the first raised exception. -/
def mapE {α β : Type} (g : α → Except Err β) : List α → Except Err (List β)
  | [] => .ok []
  | a :: rest => do
    let b ← g a
    let bs ← mapE g rest
    pure (b :: bs)

/-- Python `bool()` of a `Part` value: a 2-element NamedTuple is always truthy. -/
def partTruthy (_ : Part) : Bool := true

/-- Python `i < index` on `Counter` keys (all keys are truthy integers when
the flattening guard holds; `None` comparisons would be `TypeError`). -/
def optLt : Option Int → Option Int → Bool
  | some x, some y => x < y
  | _, _ => false

/-- `Counter(disc.index for disc in discs)[i]`: multiplicity of disc index `i`. -/
def disc_count (discs : List Part) (i : Option Int) : Nat :=
  (discs.filter (fun d => d.index = i)).length

/-- `disc_increments[index]`: sum of track counts of all discs with strictly
smaller index (`keys` are the distinct disc indices). -/
def disc_increments (discs : List Part) (keys : List (Option Int)) (index : Option Int) : Nat :=
  ((keys.filter (fun i => optLt i index)).map (disc_count discs)).sum

/-- `flatten_discs`: read all disc parts; if every file has a resolvable track
(the reads raise otherwise — the `all(...)` test itself is always true), every
disc index is truthy and more than one distinct disc index occurs, rewrite each
file's track to `(track_number + increment, len(paths))` and delete its disc
tag; otherwise leave the group unchanged. -/
def flatten_discs (files : List AudioFile) (dry_run : Bool) : Except Err (List AudioFile) := do
  let discs ← mapE get_disc files
  let keys := (discs.map (fun d => d.index)).dedup
  let tracks ← mapE (fun f => get_track f true) files
  if tracks.all partTruthy = true ∧ keys.all truthy = true ∧ 1 < keys.length then
    mapE (fun f => do
      let d ← get_disc f
      let t ← get_track f true
      let track_disc := d.index
      let track_number ← match t.index with
        | some n => Except.ok n
        | none => Except.error Err.typeError
      let inc ← if track_disc ∈ keys then Except.ok (disc_increments discs keys track_disc)
        else Except.error Err.keyError
      let f' ← set_track f ⟨some (track_number + (inc : Int)), some (files.length : Int)⟩ dry_run
      pure (del_disc f' dry_run)) files
  else pure files

/-- A default `AudioFile` (only used as the out-of-range value of `List.getD`). -/
def defaultFile : AudioFile := ⟨.mp4 [] [], ⟨none, none⟩, 0⟩

/-- An MP3 file with the given `TRCK` and `TPOS` texts and no filesystem hints. -/
def mkmp3 (trck tpos : List Char) : AudioFile :=
  ⟨.mp3 (some trck) (some tpos) (2, 3), ⟨none, none⟩, 0⟩

/-- The spec's flattening example: 3 files on disc 1 of 2 (tracks 1-3 of 3) and
2 files on disc 2 of 2 (tracks 1-2 of 2). -/
def exampleGroup : List AudioFile :=
  [mkmp3 ['1', '/', '3'] ['1', '/', '2'], mkmp3 ['2', '/', '3'] ['1', '/', '2'],
   mkmp3 ['3', '/', '3'] ['1', '/', '2'], mkmp3 ['1', '/', '2'] ['2', '/', '2'],
   mkmp3 ['2', '/', '2'] ['2', '/', '2']]

/-- The expected state of the example group after flattening: track texts
`1/5` .. `5/5`, disc tags removed, two saves per file (set_track and del_disc). -/
def exampleFlattened : List AudioFile :=
  [⟨.mp3 (some ['1', '/', '5']) none (2, 3), ⟨none, none⟩, 2⟩,
   ⟨.mp3 (some ['2', '/', '5']) none (2, 3), ⟨none, none⟩, 2⟩,
   ⟨.mp3 (some ['3', '/', '5']) none (2, 3), ⟨none, none⟩, 2⟩,
   ⟨.mp3 (some ['4', '/', '5']) none (2, 3), ⟨none, none⟩, 2⟩,
   ⟨.mp3 (some ['5', '/', '5']) none (2, 3), ⟨none, none⟩, 2⟩]

/-! ### Arithmetic facts about the digit printer and `int()` parser -/

theorem digitChar_isDigitCh (n : Nat) : isDigitCh (digitChar n) = true := by
  unfold digitChar
  split <;> decide

theorem digitVal_digitChar (n : Nat) (h : n < 10) : digitVal (digitChar n) = n := by
  interval_cases n <;> decide

theorem natToDigitsGo_digits (fuel n : Nat) :
    ∀ c ∈ natToDigitsGo fuel n, isDigitCh c = true := by
  induction fuel generalizing n with
  | zero => intro c hc; simp [natToDigitsGo] at hc
  | succ fuel ih =>
    intro c hc
    unfold natToDigitsGo at hc
    split at hc
    · simp at hc
      subst hc
      exact digitChar_isDigitCh n
    · rcases List.mem_append.mp hc with h | h
      · exact ih _ c h
      · simp at h
        subst h
        exact digitChar_isDigitCh (n % 10)

theorem natToDigitsGo_ne_nil (fuel n : Nat) (h : 0 < fuel) : natToDigitsGo fuel n ≠ [] := by
  cases fuel with
  | zero => omega
  | succ fuel =>
    unfold natToDigitsGo
    split
    · simp
    · simp

theorem digitsVal_append_singleton (l : List Char) (c : Char) :
    digitsVal (l ++ [c]) = digitsVal l * 10 + digitVal c := by
  simp [digitsVal, List.foldl_append]

theorem natToDigitsGo_val (fuel n : Nat) (h : n < fuel) :
    digitsVal (natToDigitsGo fuel n) = n := by
  induction fuel generalizing n with
  | zero => omega
  | succ fuel ih =>
    unfold natToDigitsGo
    split
    · rename_i hlt
      simp [digitsVal]
      exact digitVal_digitChar n hlt
    · rename_i hge
      rw [digitsVal_append_singleton, ih (n / 10) (by omega), digitVal_digitChar _ (by omega)]
      omega

theorem natToDigits_digits (n : Nat) : ∀ c ∈ natToDigits n, isDigitCh c = true :=
  natToDigitsGo_digits (n + 1) n

theorem natToDigits_ne_nil (n : Nat) : natToDigits n ≠ [] :=
  natToDigitsGo_ne_nil (n + 1) n (by omega)

theorem natToDigits_val (n : Nat) : digitsVal (natToDigits n) = n :=
  natToDigitsGo_val (n + 1) n (by omega)

theorem digitTail_of_digits (l : List Char) (h : ∀ c ∈ l, isDigitCh c = true) :
    digitTail l = true := by
  induction l with
  | nil => rfl
  | cons c rest ih =>
    have hc : isDigitCh c = true := h c (List.mem_cons_self c rest)
    have h95 : ¬c.toNat = 95 := by
      simp [isDigitCh] at hc
      omega
    unfold digitTail
    simp [h95, hc]
    exact ih fun d hd => h d (List.mem_cons_of_mem c hd)

theorem isDigitPart_of_digits (l : List Char) (hne : l ≠ [])
    (h : ∀ c ∈ l, isDigitCh c = true) : isDigitPart l = true := by
  cases l with
  | nil => exact absurd rfl hne
  | cons c rest =>
    unfold isDigitPart
    simp [h c (List.mem_cons_self c rest)]
    exact digitTail_of_digits rest fun d hd => h d (List.mem_cons_of_mem c hd)

theorem filter_underscore_of_digits (l : List Char) (h : ∀ c ∈ l, isDigitCh c = true) :
    l.filter (fun c => c.toNat ≠ 95) = l := by
  apply List.filter_eq_self.mpr
  intro c hc
  have := h c hc
  simp [isDigitCh] at this
  simp
  omega

theorem dropWhile_of_all_not {p : Char → Bool} (l : List Char)
    (h : ∀ c ∈ l, p c = false) : l.dropWhile p = l := by
  cases l with
  | nil => rfl
  | cons c rest => simp [List.dropWhile_cons, h c (List.mem_cons_self c rest)]

theorem stripWSBoth_of_no_ws (l : List Char) (h : ∀ c ∈ l, isWS c = false) :
    stripWSBoth l = l := by
  unfold stripWSBoth
  rw [dropWhile_of_all_not l h, dropWhile_of_all_not l.reverse
    (fun c hc => h c (List.mem_reverse.mp hc)), List.reverse_reverse]

theorem isWS_of_digit (c : Char) (h : isDigitCh c = true) : isWS c = false := by
  simp [isDigitCh] at h
  simp [isWS]
  omega

theorem pyIntCore_digits (l : List Char) (hne : l ≠ []) (h : ∀ c ∈ l, isDigitCh c = true) :
    pyIntCore l = some ((digitsVal l : Nat) : Int) := by
  cases l with
  | nil => exact absurd rfl hne
  | cons c rest =>
    have hc : isDigitCh c = true := h c (List.mem_cons_self c rest)
    have h43 : ¬c.toNat = 43 := by simp [isDigitCh] at hc; omega
    have h45 : ¬c.toNat = 45 := by simp [isDigitCh] at hc; omega
    unfold pyIntCore
    simp only [h43, h45, if_false]
    rw [isDigitPart_of_digits (c :: rest) (by simp) h]
    unfold intOfDigits
    rw [filter_underscore_of_digits (c :: rest) h]
    simp

theorem pyInt_natToDigits (n : Nat) : pyInt (natToDigits n) = some ((n : Nat) : Int) := by
  unfold pyInt
  rw [stripWSBoth_of_no_ws _ (fun c hc => isWS_of_digit c (natToDigits_digits n c hc)),
    pyIntCore_digits _ (natToDigits_ne_nil n) (natToDigits_digits n), natToDigits_val]

theorem pyStrInt_ne_nil (i : Int) : pyStrInt i ≠ [] := by
  cases i with
  | ofNat n => exact natToDigits_ne_nil n
  | negSucc m => simp [pyStrInt]

theorem mem_pyStrInt (i : Int) (c : Char) (h : c ∈ pyStrInt i) :
    c.toNat = 45 ∨ isDigitCh c = true := by
  cases i with
  | ofNat n => exact Or.inr (natToDigits_digits n c h)
  | negSucc m =>
    rcases List.mem_cons.mp h with h | h
    · subst h; left; rfl
    · exact Or.inr (natToDigits_digits (m + 1) c h)

theorem pyInt_pyStrInt (i : Int) : pyInt (pyStrInt i) = some i := by
  cases i with
  | ofNat n => exact pyInt_natToDigits n
  | negSucc m =>
    unfold pyInt pyStrInt
    have hdig := natToDigits_digits (m + 1)
    have hnows : ∀ c ∈ '-' :: natToDigits (m + 1), isWS c = false := by
      intro c hc
      rcases List.mem_cons.mp hc with h | h
      · subst h; rfl
      · exact isWS_of_digit c (hdig c h)
    rw [stripWSBoth_of_no_ws _ hnows]
    have hdp := isDigitPart_of_digits _ (natToDigits_ne_nil (m + 1)) hdig
    simp only [pyIntCore, hdp, if_true]
    unfold intOfDigits
    rw [filter_underscore_of_digits _ hdig, natToDigits_val]
    simp [Int.negSucc_eq]

/-! ### takeWhile/dropWhile over an append at the first slash -/

theorem takeWhile_append_all {p : Char → Bool} (a b : List Char)
    (h : ∀ c ∈ a, p c = true) : (a ++ b).takeWhile p = a ++ b.takeWhile p := by
  induction a with
  | nil => rfl
  | cons c rest ih =>
    simp only [List.cons_append, List.takeWhile_cons, h c (List.mem_cons_self c rest)]
    simp [ih fun d hd => h d (List.mem_cons_of_mem c hd)]

theorem dropWhile_append_all {p : Char → Bool} (a b : List Char)
    (h : ∀ c ∈ a, p c = true) : (a ++ b).dropWhile p = b.dropWhile p := by
  induction a with
  | nil => rfl
  | cons c rest ih =>
    simp only [List.cons_append, List.dropWhile_cons, h c (List.mem_cons_self c rest)]
    simp [ih fun d hd => h d (List.mem_cons_of_mem c hd)]

theorem takeWhile_of_all {p : Char → Bool} (l : List Char)
    (h : ∀ c ∈ l, p c = true) : l.takeWhile p = l := by
  have := takeWhile_append_all l [] h
  simpa using this

theorem dropWhile_all_nil {p : Char → Bool} (l : List Char)
    (h : ∀ c ∈ l, p c = true) : l.dropWhile p = [] := by
  induction l with
  | nil => rfl
  | cons c rest ih =>
    simp only [List.dropWhile_cons, h c (List.mem_cons_self c rest)]
    simp [ih fun d hd => h d (List.mem_cons_of_mem c hd)]

theorem pyStrInt_no_slash (i : Int) (c : Char) (h : c ∈ pyStrInt i) :
    decide (c ≠ '/') = true := by
  rcases mem_pyStrInt i c h with h45 | hd
  · simp
    intro hc
    subst hc
    exact absurd h45 (by decide)
  · simp [isDigitCh] at hd
    simp
    intro hc
    subst hc
    exact absurd hd (by decide)

/-- C5 (claim theorem below uses this): each claim-relevant behavior of `from_string`. -/
theorem parseSeg_error (s : List Char) (e : Err) (h : parseSeg s = .error e) :
    e = .parseError ∧ s ≠ [] ∧ pyInt s = none := by
  unfold parseSeg at h
  split at h
  · exact absurd h (by simp)
  · rename_i hne
    split at h
    · exact absurd h (by simp)
    · rename_i hp
      refine ⟨by injection h with h'; exact h'.symm, by simpa using hne, hp⟩

/-! ### Character-class facts and pipeline-inertness lemmas -/

theorem alnum_name (c : Char) (h : isAlnumCh c = true) : isNameCh c = true := by
  simp [isNameCh, h]

theorem alnum_not_punct (c : Char) (h : isAlnumCh c = true) : isPunctCh c = false := by
  simp [isAlnumCh] at h
  simp [isPunctCh]
  omega

theorem name_not_ws (c : Char) (h : isNameCh c = true) : isWS c = false := by
  simp [isNameCh, isAlnumCh] at h
  simp [isWS]
  omega

theorem name_not_amp (c : Char) (h : isNameCh c = true) : isAmpCh c = false := by
  simp [isNameCh, isAlnumCh] at h
  simp [isAmpCh]
  omega

theorem name_not_at (c : Char) (h : isNameCh c = true) : isAtCh c = false := by
  simp [isNameCh, isAlnumCh] at h
  simp [isAtCh]
  omega

theorem name_not_sep (c : Char) (h : isNameCh c = true) : isSepPunctCh c = false := by
  simp [isNameCh, isAlnumCh] at h
  simp [isSepPunctCh]
  omega

theorem name_not_other (c : Char) (h : isNameCh c = true) : isOtherPunctCh c = false := by
  simp [isNameCh, isAlnumCh] at h
  simp [isOtherPunctCh]
  omega

theorem name_ne_of_toNat (c : Char) (d : Char) (h : isNameCh c = true)
    (hd : isNameCh d = false) : c ≠ d := by
  intro he
  subst he
  rw [h] at hd
  exact Bool.noConfusion hd

theorem name_not_dot (c : Char) (h : isNameCh c = true) : c ≠ '.' :=
  name_ne_of_toNat c '.' h (by decide)

theorem name_not_space (c : Char) (h : isNameCh c = true) : c ≠ ' ' :=
  name_ne_of_toNat c ' ' h (by decide)

theorem name_not_lparen (c : Char) (h : isNameCh c = true) : c ≠ '(' :=
  name_ne_of_toNat c '(' h (by decide)

theorem name_not_lbrack (c : Char) (h : isNameCh c = true) : c ≠ '[' :=
  name_ne_of_toNat c '[' h (by decide)

theorem innerMatch_all (l : List Char) (h : innerMatch l = true) :
    ∀ c ∈ l, isNameCh c = true := by
  induction l with
  | nil => exact absurd h (by simp [innerMatch])
  | cons a t ih =>
    cases t with
    | nil => exact absurd h (by simp [innerMatch])
    | cons b t2 =>
      cases t2 with
      | nil =>
        have h' : (isNameCh a && isAlnumCh b) = true := h
        simp at h'
        intro c hc
        simp at hc
        rcases hc with rfl | rfl
        · exact h'.1
        · exact alnum_name c h'.2
      | cons d t3 =>
        have h' : (isNameCh a && innerMatch (b :: d :: t3)) = true := h
        simp at h'
        intro c hc
        rcases List.mem_cons.mp hc with rfl | hc
        · exact h'.1
        · exact ih h'.2 c hc

theorem innerMatch_length (l : List Char) (h : innerMatch l = true) : 2 ≤ l.length := by
  cases l with
  | nil => exact absurd h (by simp [innerMatch])
  | cons a t =>
    cases t with
    | nil => exact absurd h (by simp [innerMatch])
    | cons b t2 => simp

theorem innerMatch_getLast (l : List Char) (h : innerMatch l = true) :
    ∃ d, l.getLast? = some d ∧ isAlnumCh d = true := by
  induction l with
  | nil => exact absurd h (by simp [innerMatch])
  | cons a t ih =>
    cases t with
    | nil => exact absurd h (by simp [innerMatch])
    | cons b t2 =>
      cases t2 with
      | nil =>
        have h' : (isNameCh a && isAlnumCh b) = true := h
        simp at h'
        exact ⟨b, rfl, h'.2⟩
      | cons d t3 =>
        have h' : (isNameCh a && innerMatch (b :: d :: t3)) = true := h
        simp at h'
        obtain ⟨e, he, halnum⟩ := ih h'.2
        refine ⟨e, ?_, halnum⟩
        rw [List.getLast?_cons_cons]
        cases t3 with
        | nil => exact he
        | cons f t4 => rw [List.getLast?_cons_cons] at he ⊢; exact he

theorem innerMatch_specInner (l : List Char) (h : innerMatch l = true) :
    specInner l = true := by
  induction l with
  | nil => exact absurd h (by simp [innerMatch])
  | cons a t ih =>
    cases t with
    | nil => exact absurd h (by simp [innerMatch])
    | cons b t2 =>
      cases t2 with
      | nil =>
        have h' : (isNameCh a && isAlnumCh b) = true := h
        simp at h'
        have : specInner [a, b] = (isNameCh a && specInner [b]) := rfl
        rw [this]
        simp [h'.1]
        have : specInner [b] = isAlnumCh b := rfl
        rw [this, h'.2]
      | cons d t3 =>
        have h' : (isNameCh a && innerMatch (b :: d :: t3)) = true := h
        simp at h'
        have : specInner (a :: b :: d :: t3) = (isNameCh a && specInner (b :: d :: t3)) := rfl
        rw [this]
        simp [h'.1]
        exact ih h'.2

theorem sanitized_all_name (l : List Char) (h : is_sanitized l = true) :
    ∀ c ∈ l, isNameCh c = true := by
  cases l with
  | nil => exact absurd h (by simp [is_sanitized])
  | cons a t =>
    have h' : (isAlnumCh a && innerMatch t) = true := h
    simp at h'
    intro c hc
    rcases List.mem_cons.mp hc with rfl | hc
    · exact alnum_name c h'.1
    · exact innerMatch_all t h'.2 c hc

theorem sanitized_specGrammar (l : List Char) (h : is_sanitized l = true) :
    specGrammar l = true := by
  cases l with
  | nil => exact absurd h (by simp [is_sanitized])
  | cons a t =>
    have h' : (isAlnumCh a && innerMatch t) = true := h
    simp at h'
    have : specGrammar (a :: t) = (isAlnumCh a && specInner t) := rfl
    rw [this]
    simp [h'.1]
    exact innerMatch_specInner t h'.2

theorem sanitized_length (l : List Char) (h : is_sanitized l = true) : 3 ≤ l.length := by
  cases l with
  | nil => exact absurd h (by simp [is_sanitized])
  | cons a t =>
    have h' : (isAlnumCh a && innerMatch t) = true := h
    simp at h'
    have := innerMatch_length t h'.2
    simp
    omega

/-! Inertness of each pipeline step on strings of name characters. -/

theorem subInitials_id (fuel : Nat) (prev : Option Char) (l : List Char)
    (h : ∀ c ∈ l, c ≠ '.' ∧ c ≠ ' ') : subInitials fuel prev l = l := by
  induction fuel generalizing prev l with
  | zero => rfl
  | succ fuel ih =>
    cases l with
    | nil => rfl
    | cons c rest =>
      have htail : ∀ d ∈ rest, d ≠ '.' ∧ d ≠ ' ' :=
        fun d hd => h d (List.mem_cons_of_mem c hd)
      simp only [subInitials]
      split
      · split
        · exact absurd rfl (htail '.' (by simp)).1
        · exact absurd rfl (htail '.' (by simp)).1
        · exact absurd rfl (htail ' ' (by simp)).2
        · simp [ih (some c) rest htail]
      · simp [ih (some c) rest htail]

theorem subSep_id (isSym : Char → Bool) (repl : List Char) (fuel : Nat) (l : List Char)
    (h : ∀ c ∈ l, isSym c = false ∧ isWS c = false) : subSep isSym repl fuel l = l := by
  induction fuel generalizing l with
  | zero => rfl
  | succ fuel ih =>
    cases l with
    | nil => rfl
    | cons c rest =>
      have hc := h c (List.mem_cons_self c rest)
      have htail : ∀ d ∈ rest, isSym d = false ∧ isWS d = false :=
        fun d hd => h d (List.mem_cons_of_mem c hd)
      simp only [subSep]
      rw [if_neg (by simp [hc.1]), if_neg (by simp [hc.2])]
      simp [ih rest htail]

theorem subJoin_id (l : List Char) (h : hasJoinTriple l = false) : subJoin l = l := by
  induction l with
  | nil => rfl
  | cons a t ih =>
    cases t with
    | nil => rfl
    | cons b t2 =>
      cases t2 with
      | nil => rfl
      | cons c rest =>
        have h' : (isLetterCh a && (b.toNat = 45 || b.toNat = 39) && isLetterCh c
            || hasJoinTriple (b :: c :: rest)) = false := h
        simp only [Bool.or_eq_false_iff] at h'
        simp only [subJoin]
        rw [if_neg (by simp [h'.1])]
        have : subJoin (b :: c :: rest) = b :: c :: rest := ih h'.2
        simp [this]

theorem subBrack_id (oc cc : Char) (fuel : Nat) (l : List Char)
    (h : ∀ c ∈ l, c ≠ oc ∧ isWS c = false) : subBrack oc cc fuel l = l := by
  induction fuel generalizing l with
  | zero => rfl
  | succ fuel ih =>
    cases l with
    | nil => rfl
    | cons c rest =>
      have hc := h c (List.mem_cons_self c rest)
      have htail : ∀ d ∈ rest, d ≠ oc ∧ isWS d = false :=
        fun d hd => h d (List.mem_cons_of_mem c hd)
      simp only [subBrack]
      rw [if_neg (by simp [hc.1]), if_neg (by simp [hc.2])]
      simp [ih rest htail]

theorem subOther_id (l : List Char) (h : ∀ c ∈ l, isOtherPunctCh c = false) :
    subOther l = l := by
  unfold subOther
  induction l with
  | nil => rfl
  | cons a t ih =>
    simp only [List.map_cons]
    rw [if_neg (by simp [h a (List.mem_cons_self a t)])]
    simp [ih fun d hd => h d (List.mem_cons_of_mem a hd)]

theorem subWhitespace_id (fuel : Nat) (l : List Char)
    (h : ∀ c ∈ l, isWS c = false) : subWhitespace fuel l = l := by
  induction fuel generalizing l with
  | zero => rfl
  | succ fuel ih =>
    cases l with
    | nil => rfl
    | cons c rest =>
      simp only [subWhitespace]
      rw [if_neg (by simp [h c (List.mem_cons_self c rest)])]
      simp [ih rest fun d hd => h d (List.mem_cons_of_mem c hd)]

theorem stripPunct_of_sanitized (l : List Char) (h : is_sanitized l = true) :
    stripPunct l = l := by
  cases l with
  | nil => exact absurd h (by simp [is_sanitized])
  | cons a t =>
    have h' : (isAlnumCh a && innerMatch t) = true := h
    simp at h'
    obtain ⟨d, hd, halnum⟩ := innerMatch_getLast t h'.2
    have hrev : (a :: t).reverse = d :: (t.reverse.tail ++ [a]) := by
      have h1 : t.reverse.head? = some d := by rw [List.head?_reverse]; exact hd
      have h2 : t.reverse = d :: t.reverse.tail := List.eq_cons_of_mem_head? h1
      rw [List.reverse_cons, h2]
      simp
    unfold stripPunct
    rw [List.dropWhile_cons, if_neg (by simp [alnum_not_punct a h'.1])]
    rw [hrev, List.dropWhile_cons, if_neg (by simp [alnum_not_punct d halnum])]
    rw [← hrev, List.reverse_reverse]

theorem pipeline_id_of_sanitized_nojoin (x : List Char) (hs : is_sanitized x = true)
    (hj : hasJoinTriple x = false) : pipeline x = x := by
  have hname := sanitized_all_name x hs
  have h2 : subInitials x.length none x = x :=
    subInitials_id _ none x fun c hc =>
      ⟨name_not_dot c (hname c hc), name_not_space c (hname c hc)⟩
  have h3 : subSep isAmpCh [' ', 'a', 'n', 'd', ' '] x.length x = x :=
    subSep_id _ _ _ x fun c hc => ⟨name_not_amp c (hname c hc), name_not_ws c (hname c hc)⟩
  have h4 : subSep isAtCh [' ', 'a', 't', ' '] x.length x = x :=
    subSep_id _ _ _ x fun c hc => ⟨name_not_at c (hname c hc), name_not_ws c (hname c hc)⟩
  have h5 : subJoin x = x := subJoin_id x hj
  have h6 : subSep isSepPunctCh ['-'] x.length x = x :=
    subSep_id _ _ _ x fun c hc => ⟨name_not_sep c (hname c hc), name_not_ws c (hname c hc)⟩
  have h7 : subBrack '(' ')' x.length x = x :=
    subBrack_id _ _ _ x fun c hc => ⟨name_not_lparen c (hname c hc), name_not_ws c (hname c hc)⟩
  have h7b : subBrack '[' ']' x.length x = x :=
    subBrack_id _ _ _ x fun c hc => ⟨name_not_lbrack c (hname c hc), name_not_ws c (hname c hc)⟩
  have h8 : subOther x = x := subOther_id x fun c hc => name_not_other c (hname c hc)
  have h9 : subWhitespace x.length x = x :=
    subWhitespace_id _ x fun c hc => name_not_ws c (hname c hc)
  have h10 : stripPunct x = x := stripPunct_of_sanitized x hs
  simp only [pipeline]
  rw [h2, h3, h4, h5, h6, h7, h7b, h8, h9, h10]

/-! ### Claim theorems for the Part model -/

theorem merge_ok_eq (a b : Part) (roc : Bool) (m : Part) (h : Part.merge a b roc = .ok m) :
    m = ⟨pyOr a.index b.index, pyOr a.total b.total⟩ := by
  simp only [Part.merge] at h
  split at h
  · split at h
    · exact Except.noConfusion h
    · split at h
      · exact Except.noConfusion h
      · injection h with h'
        exact h'.symm
  · injection h with h'
    exact h'.symm

theorem merge_true_error_iff (a b : Part) :
    (∃ e, Part.merge a b true = .error e) ↔
      ((truthy b.index = true ∧ pyOr a.index b.index ≠ b.index) ∨
       (truthy b.total = true ∧ pyOr a.total b.total ≠ b.total)) := by
  simp only [Part.merge]
  constructor
  · rintro ⟨e, he⟩
    split at he
    · split at he
      · rename_i h1
        simp only [Bool.and_eq_true, decide_eq_true_eq] at h1
        exact Or.inl h1
      · split at he
        · rename_i h2
          simp only [Bool.and_eq_true, decide_eq_true_eq] at h2
          exact Or.inr h2
        · exact Except.noConfusion he
    · rename_i hc
      exact absurd trivial hc
  · intro hor
    rw [if_pos trivial]
    by_cases hc1 : (truthy b.index && decide (pyOr a.index b.index ≠ b.index)) = true
    · rw [if_pos hc1]
      exact ⟨.conflictIndex, rfl⟩
    · rw [if_neg hc1]
      rcases hor with ⟨hb, hne⟩ | ⟨hb, hne⟩
      · exact absurd (by simp [hb, hne]) hc1
      · have hc2 : (truthy b.total && decide (pyOr a.total b.total ≠ b.total)) = true := by
          simp [hb, hne]
        rw [if_pos hc2]
        exact ⟨.conflictTotal, rfl⟩

/-- C2: `merge` picks each field from the primary when that field is truthy and
otherwise falls back to the secondary, treating `0` the same as absent; in
particular, whenever `a.index` is absent (falsy), `merge(a, b).index = b.index`,
and the analogous rule holds for `total`.  With `raise_on_conflicts = false`
the merge always succeeds. -/
theorem C2_merge_field_selection :
    (∀ a b : Part, ∀ roc : Bool, ∀ m : Part, Part.merge a b roc = .ok m →
      (truthy a.index = true → m.index = a.index) ∧
      (truthy a.index = false → m.index = b.index) ∧
      (truthy a.total = true → m.total = a.total) ∧
      (truthy a.total = false → m.total = b.total))
  ∧ (∀ a b : Part, ∃ m : Part, Part.merge a b false = .ok m) := by
  constructor
  · intro a b roc m h
    rw [merge_ok_eq a b roc m h]
    refine ⟨fun ht => by simp [pyOr, ht], fun hf => by simp [pyOr, hf],
      fun ht => by simp [pyOr, ht], fun hf => by simp [pyOr, hf]⟩
  · intro a b
    exact ⟨_, rfl⟩

/-- C2 witness: with `a.index = some 0` (truthy-absent) the merged index is the
secondary's, and the conflict-free merge succeeds. -/
theorem C2_merge_field_selection_witness :
    (Part.mk (some 7) (some 2)).index = (Part.mk (some 7) none).index ∧
    ∃ m : Part, Part.merge ⟨some 0, some 2⟩ ⟨some 7, none⟩ false = .ok m :=
  ⟨(C2_merge_field_selection.1 ⟨some 0, some 2⟩ ⟨some 7, none⟩ true ⟨some 7, some 2⟩
      (by decide)).2.1 (by decide),
    C2_merge_field_selection.2 ⟨some 0, some 2⟩ ⟨some 7, none⟩⟩

/-- C3: with `raise_on_conflicts = true`, `merge` fails exactly when a truthy
secondary field differs from the computed merged value of that field; concretely,
`merge(Part(3,10), Part(5,10), True)` raises the conflict error while the same
call with `raise_on_conflicts = false` returns `Part(3, 10)`. -/
theorem C3_merge_conflict :
    (∀ a b m : Part, Part.merge a b false = .ok m →
      ((∃ e, Part.merge a b true = .error e) ↔
        ((truthy b.index = true ∧ m.index ≠ b.index) ∨
         (truthy b.total = true ∧ m.total ≠ b.total))))
  ∧ Part.merge ⟨some 3, some 10⟩ ⟨some 5, some 10⟩ true = .error .conflictIndex
  ∧ Part.merge ⟨some 3, some 10⟩ ⟨some 5, some 10⟩ false = .ok ⟨some 3, some 10⟩ := by
  refine ⟨?_, by decide, by decide⟩
  intro a b m h
  rw [merge_ok_eq a b false m h]
  exact merge_true_error_iff a b

/-- C3 witness: the conflict criterion instantiated at `Part(3,10)` / `Part(5,10)`. -/
theorem C3_merge_conflict_witness :
    (∃ e, Part.merge ⟨some 3, some 10⟩ ⟨some 5, some 10⟩ true = .error e) ↔
      ((truthy (Part.mk (some 5) (some 10)).index = true ∧
        (Part.mk (some 3) (some 10)).index ≠ (Part.mk (some 5) (some 10)).index) ∨
       (truthy (Part.mk (some 5) (some 10)).total = true ∧
        (Part.mk (some 3) (some 10)).total ≠ (Part.mk (some 5) (some 10)).total)) :=
  C3_merge_conflict.1 ⟨some 3, some 10⟩ ⟨some 5, some 10⟩ ⟨some 3, some 10⟩ (by decide)

theorem from_string_roundtrip (i t : Int) :
    Part.from_string (pyStrInt i ++ '/' :: pyStrInt t) = .ok ⟨some i, some t⟩ := by
  unfold Part.from_string
  rw [takeWhile_append_all _ _ (pyStrInt_no_slash i), dropWhile_append_all _ _
    (fun c hc => by simpa using pyStrInt_no_slash i c hc)]
  simp only [List.takeWhile_cons, List.dropWhile_cons]
  norm_num
  have hi : parseSeg (pyStrInt i) = .ok (some i) := by
    unfold parseSeg
    simp [pyStrInt_ne_nil i, pyInt_pyStrInt i]
  have ht : parseSeg (pyStrInt t) = .ok (some t) := by
    unfold parseSeg
    simp [pyStrInt_ne_nil t, pyInt_pyStrInt t]
  simp [hi, ht, Bind.bind, Except.bind]

/-- C5: `from_string` splits on the first `/`: a non-empty segment parses with
`int()`, an empty segment is absent, a missing separator makes the whole string
the index with total absent, the empty string gives `(absent, absent)`, failure
happens only when a present segment is non-numeric, and printed pairs round-trip. -/
theorem C5_from_string :
    (∀ i t : Int, Part.from_string (pyStrInt i ++ '/' :: pyStrInt t) = .ok ⟨some i, some t⟩)
  ∧ Part.from_string [] = .ok ⟨none, none⟩
  ∧ (∀ l : List Char, '/' ∉ l →
      Part.from_string l = (parseSeg l).map fun i => Part.mk i none)
  ∧ (∀ b : List Char, ∀ p : Part, Part.from_string ('/' :: b) = .ok p → p.index = none)
  ∧ (∀ l : List Char, ∀ e : Err, Part.from_string l = .error e →
      e = .parseError ∧
      ((l.takeWhile (fun c => c ≠ '/') ≠ [] ∧ pyInt (l.takeWhile (fun c => c ≠ '/')) = none) ∨
       ((l.dropWhile (fun c => c ≠ '/')).tail ≠ [] ∧
        pyInt ((l.dropWhile (fun c => c ≠ '/')).tail) = none))) := by
  refine ⟨fun i t => from_string_roundtrip i t, by decide, ?_, ?_, ?_⟩
  · intro l hl
    unfold Part.from_string
    have hall : ∀ c ∈ l, (c ≠ '/' : Bool) = true := by
      intro c hc
      simp
      intro hcc
      exact hl (hcc ▸ hc)
    rw [takeWhile_of_all l hall, dropWhile_all_nil l hall]
    have h0 : parseSeg [] = .ok none := rfl
    cases hps : parseSeg l with
    | ok v => simp [hps, h0, Except.map, Bind.bind, Except.bind, pure, Except.pure]
    | error e => simp [hps, h0, Except.map, Bind.bind, Except.bind]
  · intro b p h
    simp only [Part.from_string] at h
    simp only [List.takeWhile_cons, List.dropWhile_cons] at h
    norm_num at h
    simp only [show parseSeg [] = .ok none from rfl] at h
    cases hps : parseSeg b with
    | ok v =>
      rw [hps] at h
      simp [Bind.bind, Except.bind] at h
      rw [← h]
    | error e =>
      rw [hps] at h
      simp [Bind.bind, Except.bind] at h
  · intro l e h
    simp only [Part.from_string] at h
    cases hi : parseSeg (l.takeWhile fun c => c ≠ '/') with
    | error ei =>
      rw [hi] at h
      simp only [Bind.bind, Except.bind] at h
      obtain ⟨he, hne, hpi⟩ := parseSeg_error _ _ hi
      injection h with h'
      exact ⟨h' ▸ he, Or.inl ⟨hne, hpi⟩⟩
    | ok vi =>
      rw [hi] at h
      cases ht : parseSeg ((l.dropWhile fun c => c ≠ '/').tail) with
      | error et =>
        rw [ht] at h
        simp only [Bind.bind, Except.bind] at h
        obtain ⟨he, hne, hpt⟩ := parseSeg_error _ _ ht
        injection h with h'
        exact ⟨h' ▸ he, Or.inr ⟨hne, hpt⟩⟩
      | ok vt =>
        rw [ht] at h
        simp [Bind.bind, Except.bind, pure, Except.pure] at h

/-- C5 witness: the round-trip at `(3, 10)` and the missing-separator case. -/
theorem C5_from_string_witness :
    Part.from_string (pyStrInt 3 ++ '/' :: pyStrInt 10) = .ok ⟨some 3, some 10⟩ ∧
    Part.from_string ['4', '2'] = (parseSeg ['4', '2']).map (fun i => Part.mk i none) :=
  ⟨C5_from_string.1 3 10, C5_from_string.2.2.1 ['4', '2'] (by decide)⟩

/-! ### Facts about `mapE`, tag reads and writes -/

theorem mapE_ok_length {α β : Type} (g : α → Except Err β) (l : List α) (r : List β)
    (h : mapE g l = .ok r) : r.length = l.length := by
  induction l generalizing r with
  | nil =>
    simp only [mapE] at h
    injection h with h'
    rw [← h']
    rfl
  | cons a t ih =>
    simp only [mapE, Bind.bind, Except.bind] at h
    cases hga : g a with
    | error e => rw [hga] at h; exact absurd h (by simp)
    | ok b =>
      rw [hga] at h
      cases hmt : mapE g t with
      | error e => rw [hmt] at h; exact absurd h (by simp)
      | ok bs =>
        rw [hmt] at h
        simp [pure, Except.pure] at h
        rw [← h]
        simp [ih bs hmt]

theorem mapE_ok_getD {α β : Type} (g : α → Except Err β) (l : List α) (r : List β)
    (da : α) (db : β) (h : mapE g l = .ok r) :
    ∀ i, i < l.length → g (l.getD i da) = .ok (r.getD i db) := by
  induction l generalizing r with
  | nil => intro i hi; simp at hi
  | cons a t ih =>
    simp only [mapE, Bind.bind, Except.bind] at h
    cases hga : g a with
    | error e => rw [hga] at h; exact absurd h (by simp)
    | ok b =>
      rw [hga] at h
      cases hmt : mapE g t with
      | error e => rw [hmt] at h; exact absurd h (by simp)
      | ok bs =>
        rw [hmt] at h
        simp [pure, Except.pure] at h
        rw [← h]
        intro i hi
        cases i with
        | zero => simpa using hga
        | succ j =>
          simp only [List.getD_cons_succ]
          exact ih bs hmt j (by simpa using hi)

theorem mapE_ok_of_pointwise {α β : Type} (g : α → Except Err β) (da : α) (db : β)
    (l : List α) (Q : Nat → β → Prop)
    (h : ∀ i, i < l.length → ∃ b, g (l.getD i da) = .ok b ∧ Q i b) :
    ∃ r, mapE g l = .ok r ∧ r.length = l.length ∧
      ∀ i, i < l.length → Q i (r.getD i db) := by
  induction l generalizing Q with
  | nil => exact ⟨[], rfl, rfl, fun i hi => absurd hi (by simp)⟩
  | cons a t ih =>
    obtain ⟨b0, hb0, hQ0⟩ := h 0 (by simp)
    obtain ⟨r, hr, hlen, hQ⟩ := ih (fun i b => Q (i + 1) b)
      (fun i hi => by simpa using h (i + 1) (by simpa using hi))
    refine ⟨b0 :: r, ?_, by simp [hlen], ?_⟩
    · simp only [mapE, Bind.bind, Except.bind]
      rw [show g a = .ok b0 from by simpa using hb0, hr]
      simp [pure, Except.pure]
    · intro i hi
      cases i with
      | zero => simpa using hQ0
      | succ j =>
        simp only [List.getD_cons_succ]
        exact hQ j (by simpa using hi)

theorem mapE_error_of_mem {α β : Type} (g : α → Except Err β) (l : List α) (a : α)
    (ha : a ∈ l) (he : ∃ e, g a = .error e) : ∃ e', mapE g l = .error e' := by
  induction l with
  | nil => simp at ha
  | cons x t ih =>
    cases hgx : g x with
    | error e => exact ⟨e, by simp [mapE, Bind.bind, Except.bind, hgx]⟩
    | ok b =>
      rcases List.mem_cons.mp ha with rfl | hat
      · obtain ⟨e, hee⟩ := he
        rw [hgx] at hee
        exact absurd hee (by simp)
      · obtain ⟨e', he'⟩ := ih hat
        exact ⟨e', by simp [mapE, Bind.bind, Except.bind, hgx, he']⟩

theorem all_partTruthy (l : List Part) : l.all partTruthy = true := by
  simp [List.all_eq_true, partTruthy]

theorem get_track_ok_parts (f : AudioFile) (ic : Bool) (p : Part)
    (h : get_track f ic = .ok p) :
    ∃ meta, trackTagPart f = .ok meta ∧ meta.merge f.fsPart (!ic) = .ok p ∧
      p.index ≠ none ∧ p.total ≠ none := by
  unfold get_track at h
  cases hm : trackTagPart f with
  | error e => rw [hm] at h; exact absurd h (by simp [Bind.bind, Except.bind])
  | ok meta =>
    rw [hm] at h
    simp only [Bind.bind, Except.bind] at h
    cases hmg : meta.merge f.fsPart (!ic) with
    | error e => rw [hmg] at h; exact absurd h (by simp)
    | ok part =>
      rw [hmg] at h
      simp only [Except.bind] at h
      split at h
      · exact absurd h (by simp)
      · rename_i hcond
        have hc1 : part.index ≠ none := fun hh => hcond (Or.inl hh)
        have hc2 : part.total ≠ none := fun hh => hcond (Or.inr hh)
        simp [pure, Except.pure] at h
        subst h
        exact ⟨meta, rfl, hmg, hc1, hc2⟩

theorem readTrkn_ok_short (trkn : List (List (Option Int))) (m : Part)
    (h : readTrkn trkn = .ok m) : ¬1 < trkn.length := by
  intro hlen
  match trkn, hlen with
  | a :: b :: rest, _ =>
    have hrr : readTrkn (a :: b :: rest) = .error .formatError := rfl
    rw [hrr] at h
    exact Except.noConfusion h

theorem trackTagPart_del_disc (f : AudioFile) (dr : Bool) :
    trackTagPart (del_disc f dr) = trackTagPart f := by
  rcases f with ⟨tags, fs, sv⟩
  cases tags <;> rfl

theorem discRemoved_del_disc (f : AudioFile) (dr : Bool) :
    discRemoved (del_disc f dr) = true := by
  rcases f with ⟨tags, fs, sv⟩
  cases tags <;> rfl

theorem set_track_write (f : AudioFile) (a b : Int) (m : Part)
    (hmeta : trackTagPart f = .ok m) :
    ∃ f', set_track f ⟨some a, some b⟩ false = .ok f' ∧
      trackTagPart f' = .ok ⟨some a, some b⟩ := by
  rcases f with ⟨tags, fs, sv⟩
  cases tags with
  | mp3 TRCK TPOS version =>
    have hrt : Part.from_string (pyShow (some a) ++ '/' :: pyShow (some b)) =
        .ok ⟨some a, some b⟩ := from_string_roundtrip a b
    cases TRCK with
    | none =>
      refine ⟨⟨.mp3 (some (pyShow (some a) ++ '/' :: pyShow (some b))) TPOS version,
        fs, sv + 1⟩, ?_, ?_⟩
      · rfl
      · show Part.from_string (pyShow (some a) ++ '/' :: pyShow (some b)) = _
        exact hrt
    | some existing =>
      by_cases hex : existing = pyShow (some a) ++ '/' :: pyShow (some b)
      · refine ⟨⟨.mp3 (some existing) TPOS version, fs, sv⟩, ?_, ?_⟩
        · simp only [set_track]
          rw [if_pos hex]
        · show Part.from_string existing = _
          rw [hex]
          exact hrt
      · refine ⟨⟨.mp3 (some (pyShow (some a) ++ '/' :: pyShow (some b))) TPOS version,
          fs, sv + 1⟩, ?_, ?_⟩
        · simp only [set_track]
          rw [if_neg hex]
          rfl
        · show Part.from_string (pyShow (some a) ++ '/' :: pyShow (some b)) = _
          exact hrt
  | mp4 trkn disk =>
    have hshort : ¬1 < trkn.length := readTrkn_ok_short trkn m hmeta
    by_cases heq : trkn ≠ [] ∧ trkn = [[some a, some b]]
    · refine ⟨⟨.mp4 trkn disk, fs, sv⟩, ?_, ?_⟩
      · simp only [set_track]
        rw [if_neg (by simpa using hshort), if_pos heq]
      · show readTrkn trkn = _
        rw [heq.2]
        rfl
    · refine ⟨⟨.mp4 [[some a, some b]] disk, fs, sv + 1⟩, ?_, ?_⟩
      · simp only [set_track]
        rw [if_neg (by simpa using hshort), if_neg heq]
        rfl
      · show readTrkn [[some a, some b]] = _
        rfl

theorem from_string_error_cases (l : List Char) (e : Err)
    (h : Part.from_string l = .error e) :
    e = .parseError ∧
      ((l.takeWhile (fun c => c ≠ '/') ≠ [] ∧
        pyInt (l.takeWhile (fun c => c ≠ '/')) = none) ∨
       ((l.dropWhile (fun c => c ≠ '/')).tail ≠ [] ∧
        pyInt ((l.dropWhile (fun c => c ≠ '/')).tail) = none)) := by
  simp only [Part.from_string] at h
  cases hi : parseSeg (l.takeWhile fun c => c ≠ '/') with
  | error ei =>
    rw [hi] at h
    simp only [Bind.bind, Except.bind] at h
    obtain ⟨he, hne, hpi⟩ := parseSeg_error _ _ hi
    injection h with h'
    exact ⟨h' ▸ he, Or.inl ⟨hne, hpi⟩⟩
  | ok vi =>
    rw [hi] at h
    cases ht : parseSeg ((l.dropWhile fun c => c ≠ '/').tail) with
    | error et =>
      rw [ht] at h
      simp only [Bind.bind, Except.bind] at h
      obtain ⟨he, hne, hpt⟩ := parseSeg_error _ _ ht
      injection h with h'
      exact ⟨h' ▸ he, Or.inr ⟨hne, hpt⟩⟩
    | ok vt =>
      rw [ht] at h
      simp [Bind.bind, Except.bind, pure, Except.pure] at h

theorem partOfTuple_error (t : List (Option Int)) (e : Err)
    (h : partOfTuple t = .error e) : e = .typeError := by
  match t with
  | [] => exact absurd h (by simp [partOfTuple])
  | [i] => exact absurd h (by simp [partOfTuple])
  | [i, u] => exact absurd h (by simp [partOfTuple])
  | i :: u :: v :: rest =>
    have hh : partOfTuple (i :: u :: v :: rest) = .error .typeError := rfl
    rw [hh] at h
    injection h with h'
    exact h'.symm

theorem readTrkn_error (trkn : List (List (Option Int))) (e : Err)
    (h : readTrkn trkn = .error e) : e = .formatError ∨ e = .typeError := by
  match trkn with
  | [] =>
    have hh : readTrkn ([] : List (List (Option Int))) = .ok ⟨some 0, some 0⟩ := rfl
    rw [hh] at h
    exact Except.noConfusion h
  | [entry] =>
    have hh : readTrkn [entry] = partOfTuple entry := rfl
    rw [hh] at h
    exact Or.inr (partOfTuple_error entry e h)
  | a :: b :: rest =>
    have hh : readTrkn (a :: b :: rest) = .error .formatError := rfl
    rw [hh] at h
    injection h with h'
    exact Or.inl h'.symm

theorem trackTagPart_error (f : AudioFile) (e : Err) (h : trackTagPart f = .error e) :
    e = .parseError ∨ e = .formatError ∨ e = .typeError := by
  rcases f with ⟨tags, fs, sv⟩
  cases tags with
  | mp3 TRCK TPOS v => exact Or.inl (from_string_error_cases _ _ h).1
  | mp4 trkn disk => exact Or.inr (readTrkn_error trkn e h)

theorem merge_error_conflict (a b : Part) (roc : Bool) (e : Err)
    (h : Part.merge a b roc = .error e) : e = .conflictIndex ∨ e = .conflictTotal := by
  simp only [Part.merge] at h
  split at h
  · split at h
    · injection h with h'
      exact Or.inl h'.symm
    · split at h
      · injection h with h'
        exact Or.inr h'.symm
      · exact Except.noConfusion h
  · exact Except.noConfusion h

/-! ### Claim theorems for the tag read/write layer and flattening -/

/-- C7: `get_track` fails with the incomplete-error exactly when, after merging
the embedded-metadata part with the filesystem-inferred part, either field of
the merged result is still absent; validation requires only non-absence (when
both fields are present the merged part itself is returned).  The read is a
pure function of the file state: it performs no writes. -/
theorem C7_get_track_incomplete :
    (∀ f : AudioFile, ∀ ic : Bool, ∀ meta part : Part,
      trackTagPart f = .ok meta → meta.merge f.fsPart (!ic) = .ok part →
      get_track f ic = (if part.index = none ∨ part.total = none
        then .error .incompleteError else .ok part))
  ∧ (∀ f : AudioFile, ∀ ic : Bool, get_track f ic = .error .incompleteError →
      ∃ meta part, trackTagPart f = .ok meta ∧ meta.merge f.fsPart (!ic) = .ok part ∧
        (part.index = none ∨ part.total = none)) := by
  constructor
  · intro f ic meta part hm hmg
    unfold get_track
    rw [hm]
    simp only [Bind.bind, Except.bind]
    rw [hmg]
    simp only [Except.bind]
    split <;> rfl
  · intro f ic h
    unfold get_track at h
    cases hm : trackTagPart f with
    | error e =>
      rw [hm] at h
      simp [Bind.bind, Except.bind] at h
      subst h
      rcases trackTagPart_error f _ hm with h1 | h1 | h1 <;> exact Err.noConfusion h1
    | ok meta =>
      rw [hm] at h
      simp only [Bind.bind, Except.bind] at h
      cases hmg : meta.merge f.fsPart (!ic) with
      | error e =>
        rw [hmg] at h
        simp at h
        subst h
        rcases merge_error_conflict meta f.fsPart _ _ hmg with h1 | h1 <;>
          exact Err.noConfusion h1
      | ok part =>
        rw [hmg] at h
        simp only [Except.bind] at h
        split at h
        · rename_i hcond
          exact ⟨meta, part, rfl, hmg, hcond⟩
        · exact absurd h (by simp [pure, Except.pure])

/-- C7 witness: a complete read succeeds with the merged part, and a file with
no usable metadata or filesystem information fails with the incomplete-error. -/
theorem C7_witness :
    get_track ⟨.mp3 (some ['3', '/', '1', '0']) none (2, 3), ⟨none, none⟩, 0⟩ false =
      .ok ⟨some 3, some 10⟩ ∧
    get_track ⟨.mp3 none none (2, 3), ⟨none, none⟩, 0⟩ false =
      .error .incompleteError :=
  ⟨(C7_get_track_incomplete.1 ⟨.mp3 (some ['3', '/', '1', '0']) none (2, 3), ⟨none, none⟩, 0⟩
      false ⟨some 3, some 10⟩ ⟨some 3, some 10⟩ (by decide) (by decide)).trans (by decide),
   (C7_get_track_incomplete.1 ⟨.mp3 none none (2, 3), ⟨none, none⟩, 0⟩
      false ⟨none, none⟩ ⟨none, none⟩ (by decide) (by decide)).trans (by decide)⟩

/-- C8: for the MP4 format, both the read and the write fail with the
format error whenever the `trkn` list holds more than one entry, and the read
additionally fails (with `TypeError`) when the single entry has more than two
components. -/
theorem C8_mp4_tag_constraints :
    (∀ trkn disk : List (List (Option Int)), ∀ fs : Part, ∀ sv : Nat, ∀ ic : Bool,
      1 < trkn.length →
      get_track ⟨.mp4 trkn disk, fs, sv⟩ ic = .error .formatError)
  ∧ (∀ trkn disk : List (List (Option Int)), ∀ fs : Part, ∀ sv : Nat,
      ∀ p : Part, ∀ dr : Bool, 1 < trkn.length →
      set_track ⟨.mp4 trkn disk, fs, sv⟩ p dr = .error .formatError)
  ∧ (∀ entry : List (Option Int), ∀ disk : List (List (Option Int)),
      ∀ fs : Part, ∀ sv : Nat, ∀ ic : Bool, 2 < entry.length →
      get_track ⟨.mp4 [entry] disk, fs, sv⟩ ic = .error .typeError) := by
  refine ⟨?_, ?_, ?_⟩
  · intro trkn disk fs sv ic hlen
    match trkn, hlen with
    | a :: b :: rest, _ =>
      have hm : trackTagPart ⟨.mp4 (a :: b :: rest) disk, fs, sv⟩ = .error .formatError := rfl
      unfold get_track
      rw [hm]
      rfl
  · intro trkn disk fs sv p dr hlen
    simp only [set_track]
    rw [if_pos hlen]
  · intro entry disk fs sv ic hlen
    match entry, hlen with
    | x :: y :: z :: rest, _ =>
      have hm : trackTagPart ⟨.mp4 [x :: y :: z :: rest] disk, fs, sv⟩ =
        .error .typeError := rfl
      unfold get_track
      rw [hm]
      rfl

/-- C8 witness: the three MP4 constraints at concrete tag states. -/
theorem C8_witness :
    get_track ⟨.mp4 [[some 1, some 10], [some 2, some 10]] [], ⟨none, none⟩, 0⟩ true =
      .error .formatError ∧
    set_track ⟨.mp4 [[some 1, some 10], [some 2, some 10]] [], ⟨none, none⟩, 0⟩
      ⟨some 1, some 10⟩ false = .error .formatError ∧
    get_track ⟨.mp4 [[some 1, some 10, some 3]] [], ⟨none, none⟩, 0⟩ true =
      .error .typeError :=
  ⟨C8_mp4_tag_constraints.1 [[some 1, some 10], [some 2, some 10]] [] ⟨none, none⟩ 0 true
      (by decide),
   C8_mp4_tag_constraints.2.1 [[some 1, some 10], [some 2, some 10]] [] ⟨none, none⟩ 0
      ⟨some 1, some 10⟩ false (by decide),
   C8_mp4_tag_constraints.2.2 [some 1, some 10, some 3] [] ⟨none, none⟩ 0 true (by decide)⟩

/-- C9 counterexample: on a container that already holds exactly the value
being written, two consecutive `set_track` calls return the file unchanged and
perform zero saves — not the "exactly one underlying save" the claim states
(its save count stays 0). -/
theorem C9_counterexample :
    (do
      let f1 ← set_track ⟨.mp4 [[some 3, some 10]] [], ⟨none, none⟩, 0⟩
        ⟨some 3, some 10⟩ false
      set_track f1 ⟨some 3, some 10⟩ false) =
      .ok ⟨.mp4 [[some 3, some 10]] [], ⟨none, none⟩, 0⟩ := by
  decide

/-- C9 (amended): whenever a `set_track` call succeeds, repeating it with the
same part is a no-op returning the same state, and the pair of calls performs
at most one underlying save — exactly one when the first call actually wrote
(the container did not already hold the value), zero when it already did. -/
theorem C9_write_noop (f : AudioFile) (p : Part) (f1 : AudioFile)
    (h : set_track f p false = .ok f1) :
    set_track f1 p false = .ok f1 ∧ f1.saves ≤ f.saves + 1 ∧
      (f1 = f ∨ f1.saves = f.saves + 1) := by
  rcases f with ⟨tags, fs, sv⟩
  cases tags with
  | mp3 TRCK TPOS version =>
    cases TRCK with
    | none =>
      have hcall : set_track ⟨.mp3 none TPOS version, fs, sv⟩ p false =
          .ok ⟨.mp3 (some (pyShow p.index ++ '/' :: pyShow p.total)) TPOS version,
            fs, sv + 1⟩ := rfl
      rw [hcall] at h
      injection h with h'
      subst h'
      refine ⟨?_, by simp, Or.inr rfl⟩
      simp [set_track]
    | some existing =>
      by_cases hex : existing = pyShow p.index ++ '/' :: pyShow p.total
      · have hcall : set_track ⟨.mp3 (some existing) TPOS version, fs, sv⟩ p false =
            .ok ⟨.mp3 (some existing) TPOS version, fs, sv⟩ := by
          simp only [set_track]
          rw [if_pos hex]
        rw [hcall] at h
        injection h with h'
        subst h'
        exact ⟨hcall, by simp, Or.inl rfl⟩
      · have hcall : set_track ⟨.mp3 (some existing) TPOS version, fs, sv⟩ p false =
            .ok ⟨.mp3 (some (pyShow p.index ++ '/' :: pyShow p.total)) TPOS version,
              fs, sv + 1⟩ := by
          simp only [set_track]
          rw [if_neg hex]
          rfl
        rw [hcall] at h
        injection h with h'
        subst h'
        refine ⟨?_, by simp, Or.inr rfl⟩
        simp [set_track]
  | mp4 trkn disk =>
    simp only [set_track] at h
    by_cases hlen : trkn.length > 1
    · rw [if_pos hlen] at h
      exact absurd h (by simp)
    · rw [if_neg hlen] at h
      by_cases heq : trkn ≠ [] ∧ trkn = [[p.index, p.total]]
      · rw [if_pos heq] at h
        injection h with h'
        subst h'
        refine ⟨?_, by simp, Or.inl rfl⟩
        simp only [set_track]
        rw [if_neg hlen, if_pos heq]
      · rw [if_neg heq] at h
        injection h with h'
        subst h'
        refine ⟨?_, by simp, Or.inr rfl⟩
        simp [set_track]

/-- C9 witness: a first write to an empty container saves once, and the second
identical call is a save-free no-op. -/
theorem C9_witness :
    set_track ⟨.mp4 [[some 3, some 10]] [], ⟨none, none⟩, 1⟩ ⟨some 3, some 10⟩ false =
      .ok ⟨.mp4 [[some 3, some 10]] [], ⟨none, none⟩, 1⟩ ∧
    (⟨.mp4 [[some 3, some 10]] [], ⟨none, none⟩, 1⟩ : AudioFile).saves ≤
      (⟨.mp4 [] [], ⟨none, none⟩, 0⟩ : AudioFile).saves + 1 ∧
    ((⟨.mp4 [[some 3, some 10]] [], ⟨none, none⟩, 1⟩ : AudioFile) =
        ⟨.mp4 [] [], ⟨none, none⟩, 0⟩ ∨
      (⟨.mp4 [[some 3, some 10]] [], ⟨none, none⟩, 1⟩ : AudioFile).saves =
        (⟨.mp4 [] [], ⟨none, none⟩, 0⟩ : AudioFile).saves + 1) :=
  C9_write_noop ⟨.mp4 [] [], ⟨none, none⟩, 0⟩ ⟨some 3, some 10⟩
    ⟨.mp4 [[some 3, some 10]] [], ⟨none, none⟩, 1⟩ (by decide)

/-- C10: every `Part` is truthy as a Python value (a 2-element tuple), so the
`all(...)` precondition in `flatten_discs` can never be `False`: it either
holds or one of the `get_track` reads raises first, in which case
`flatten_discs` propagates that error (given the disc reads succeed) instead of
leaving the group unchanged — and no file has been modified at that point. -/
theorem C10_flatten_error_propagation :
    (∀ p : Part, partTruthy p = true)
  ∧ (∀ files : List AudioFile, ∀ discs : List Part, ∀ f : AudioFile, ∀ dr : Bool,
      mapE get_disc files = .ok discs → f ∈ files →
      (∃ e, get_track f true = .error e) →
      ∃ e', flatten_discs files dr = .error e') := by
  refine ⟨fun p => rfl, ?_⟩
  intro files discs f dr hd hmem herr
  obtain ⟨e', he'⟩ := mapE_error_of_mem (fun f => get_track f true) files f hmem herr
  refine ⟨e', ?_⟩
  unfold flatten_discs
  rw [hd]
  simp only [Bind.bind, Except.bind]
  rw [he']

/-- C10 witness: a group whose single file has readable disc data but
unresolvable track data makes `flatten_discs` fail. -/
theorem C10_witness :
    ∃ e', flatten_discs [⟨.mp3 none none (2, 3), ⟨none, none⟩, 0⟩] false = .error e' :=
  C10_flatten_error_propagation.2 [⟨.mp3 none none (2, 3), ⟨none, none⟩, 0⟩]
    [⟨none, none⟩] ⟨.mp3 none none (2, 3), ⟨none, none⟩, 0⟩ false (by decide)
    (by simp) ⟨.incompleteError, by decide⟩

/-- C6: when every file's disc part is readable, every file's track resolves
(with conflicts ignored), every disc index is truthy and more than one distinct
disc index occurs, `flatten_discs` succeeds and rewrites each file's stored
track part to `(original_track_index + sum of track counts of discs with
strictly smaller index, number of files in the group)` while removing the disc
tag; on the spec's concrete 3-plus-2-disc example this yields track parts
`1/5 .. 5/5` with no disc tag left, and re-running on the flattened group
changes nothing. -/
theorem C6_flatten_discs :
    (∀ files : List AudioFile, ∀ discs tracks : List Part,
      mapE get_disc files = .ok discs →
      mapE (fun f => get_track f true) files = .ok tracks →
      ((discs.map fun d => d.index).dedup).all truthy = true →
      1 < ((discs.map fun d => d.index).dedup).length →
      ∃ files', flatten_discs files false = .ok files' ∧
        files'.length = files.length ∧
        ∀ i, i < files.length →
          ∃ tn : Int, (tracks.getD i ⟨none, none⟩).index = some tn ∧
            trackTagPart (files'.getD i defaultFile) =
              .ok ⟨some (tn + (disc_increments discs ((discs.map fun d => d.index).dedup)
                ((discs.getD i ⟨none, none⟩).index) : Int)),
                some (files.length : Int)⟩ ∧
            discRemoved (files'.getD i defaultFile) = true)
  ∧ flatten_discs exampleGroup false = .ok exampleFlattened
  ∧ flatten_discs exampleFlattened false = .ok exampleFlattened
  ∧ (exampleFlattened.map fun f => get_track f true) =
      [.ok ⟨some 1, some 5⟩, .ok ⟨some 2, some 5⟩, .ok ⟨some 3, some 5⟩,
       .ok ⟨some 4, some 5⟩, .ok ⟨some 5, some 5⟩]
  ∧ exampleFlattened.all discRemoved = true := by
  refine ⟨?_, by decide, by decide, by decide, by decide⟩
  intro files discs tracks hd ht hkeys hlen
  have hdlen : discs.length = files.length := mapE_ok_length _ _ _ hd
  unfold flatten_discs
  rw [hd]
  simp only [Bind.bind, Except.bind]
  rw [ht]
  simp only [Except.bind]
  rw [if_pos ⟨all_partTruthy tracks, hkeys, hlen⟩]
  refine mapE_ok_of_pointwise _ defaultFile defaultFile files
    (fun i b => ∃ tn : Int, (tracks.getD i ⟨none, none⟩).index = some tn ∧
      trackTagPart b =
        .ok ⟨some (tn + (disc_increments discs ((discs.map fun d => d.index).dedup)
          ((discs.getD i ⟨none, none⟩).index) : Int)),
          some (files.length : Int)⟩ ∧
      discRemoved b = true) ?_
  · intro i hi
    have hdi : get_disc (files.getD i defaultFile) = .ok (discs.getD i ⟨none, none⟩) :=
      mapE_ok_getD _ _ _ _ _ hd i hi
    have hti : get_track (files.getD i defaultFile) true =
        .ok (tracks.getD i ⟨none, none⟩) := mapE_ok_getD _ _ _ _ _ ht i hi
    obtain ⟨meta, hmeta, hmerge, hidx, htot⟩ := get_track_ok_parts _ true _ hti
    obtain ⟨tn, htn⟩ : ∃ tn : Int, (tracks.getD i ⟨none, none⟩).index = some tn := by
      cases hix : (tracks.getD i ⟨none, none⟩).index with
      | none => exact absurd hix hidx
      | some v => exact ⟨v, rfl⟩
    have hmem : (discs.getD i ⟨none, none⟩).index ∈ (discs.map fun d => d.index).dedup := by
      have hin : discs.getD i ⟨none, none⟩ ∈ discs := by
        rw [List.getD_eq_getElem discs _ (by omega)]
        exact List.getElem_mem _
      exact List.mem_dedup.mpr (List.mem_map_of_mem _ hin)
    obtain ⟨f', hset, htag⟩ := set_track_write (files.getD i defaultFile)
      (tn + (disc_increments discs ((discs.map fun d => d.index).dedup)
        ((discs.getD i ⟨none, none⟩).index) : Int))
      ((files.length : Int)) meta hmeta
    refine ⟨del_disc f' false, ?_, tn, htn, ?_, discRemoved_del_disc f' false⟩
    · rw [hdi]
      try simp only [Bind.bind, Except.bind]
      rw [hti]
      try simp only [Except.bind]
      rw [htn]
      try simp only [Except.bind]
      rw [if_pos hmem]
      try simp only [Except.bind]
      rw [hset]
      try simp only [Except.bind]
      rfl
    · rw [trackTagPart_del_disc]
      exact htag

/-- C6 witness: the general flattening theorem instantiated at the spec's
concrete example group. -/
theorem C6_witness :
    ∃ files', flatten_discs exampleGroup false = .ok files' ∧
      files'.length = exampleGroup.length ∧
      ∀ i, i < exampleGroup.length →
        ∃ tn : Int,
          (([⟨some 1, some 3⟩, ⟨some 2, some 3⟩, ⟨some 3, some 3⟩,
             ⟨some 1, some 2⟩, ⟨some 2, some 2⟩] : List Part).getD i ⟨none, none⟩).index
            = some tn ∧
          trackTagPart (files'.getD i defaultFile) =
            .ok ⟨some (tn + (disc_increments
              [⟨some 1, some 2⟩, ⟨some 1, some 2⟩, ⟨some 1, some 2⟩,
               ⟨some 2, some 2⟩, ⟨some 2, some 2⟩]
              ((([⟨some 1, some 2⟩, ⟨some 1, some 2⟩, ⟨some 1, some 2⟩,
                  ⟨some 2, some 2⟩, ⟨some 2, some 2⟩] : List Part).map
                 fun d => d.index).dedup)
              ((([⟨some 1, some 2⟩, ⟨some 1, some 2⟩, ⟨some 1, some 2⟩,
                  ⟨some 2, some 2⟩, ⟨some 2, some 2⟩] : List Part).getD i
                 ⟨none, none⟩).index) : Int)),
              some (exampleGroup.length : Int)⟩ ∧
          discRemoved (files'.getD i defaultFile) = true :=
  C6_flatten_discs.1 exampleGroup
    [⟨some 1, some 2⟩, ⟨some 1, some 2⟩, ⟨some 1, some 2⟩,
     ⟨some 2, some 2⟩, ⟨some 2, some 2⟩]
    [⟨some 1, some 3⟩, ⟨some 2, some 3⟩, ⟨some 3, some 3⟩,
     ⟨some 1, some 2⟩, ⟨some 2, some 2⟩]
    (by decide) (by decide) (by decide) (by decide)

/-! ### Claim theorems for the sanitizer -/

/-- C1 counterexample: `"a-b-c"` satisfies the accepted-name grammar, but
`sanitize` maps it to `"ab-c"` and a second application gives `"abc"`, so
`sanitize` is not idempotent on grammar-conforming inputs; moreover on the
grammar-conforming `"a-b"` the single application already fails (the
hyphen-join step shrinks it below the grammar's minimum length). -/
theorem C1_counterexample :
    is_sanitized ['a', '-', 'b', '-', 'c'] = true ∧
    sanitize ['a', '-', 'b', '-', 'c'] = .ok ['a', 'b', '-', 'c'] ∧
    sanitize ['a', 'b', '-', 'c'] = .ok ['a', 'b', 'c'] ∧
    (['a', 'b', 'c'] : List Char) ≠ ['a', 'b', '-', 'c'] ∧
    is_sanitized ['a', '-', 'b'] = true ∧
    sanitize ['a', '-', 'b'] = .error .sanitizationError := by
  decide

/-- C1 (amended): on inputs that satisfy the accepted-name grammar and contain
no hyphen or apostrophe directly between two letters, `sanitize` is the
identity, hence succeeds and is idempotent (`sanitize(sanitize x) = sanitize x`). -/
theorem C1_sanitize_id_on_joinfree_grammar (x : List Char)
    (hs : is_sanitized x = true) (hj : hasJoinTriple x = false) :
    sanitize x = .ok x ∧ ∀ y, sanitize x = .ok y → sanitize y = .ok y := by
  have hp : pipeline x = x := pipeline_id_of_sanitized_nojoin x hs hj
  have h1 : sanitize x = .ok x := by
    unfold sanitize
    rw [hp, hs]
    simp
  refine ⟨h1, fun y hy => ?_⟩
  have hxy : x = y := by
    have h2 := h1.symm.trans hy
    exact (Except.ok.injEq _ _).mp h2
  rw [← hxy]
  exact h1

/-- C1 witness: the amended statement at the grammar-conforming, join-free
input `"ab_c"`. -/
theorem C1_witness : sanitize ['a', 'b', '_', 'c'] = .ok ['a', 'b', '_', 'c'] :=
  (C1_sanitize_id_on_joinfree_grammar ['a', 'b', '_', 'c'] (by decide) (by decide)).1

/-- C4: every string returned by `sanitize`, and every string accepted by
`is_sanitized`, matches the spec's accepted-name grammar
`[alnum]([-_alnum])*[alnum]` (so in particular has length at least 2), and
`sanitize` fails with the sanitization error whenever its pipeline result does
not match that grammar. -/
theorem C4_accepted_name_grammar :
    (∀ s r : List Char, sanitize s = .ok r →
      specGrammar r = true ∧ 2 ≤ r.length ∧ is_sanitized r = true)
  ∧ (∀ s : List Char, is_sanitized s = true → specGrammar s = true)
  ∧ (∀ s : List Char, specGrammar (pipeline s) = false →
      sanitize s = .error .sanitizationError) := by
  refine ⟨?_, sanitized_specGrammar, ?_⟩
  · intro s r h
    unfold sanitize at h
    split at h
    · rename_i hok
      injection h with h'
      subst h'
      refine ⟨sanitized_specGrammar _ hok, ?_, hok⟩
      have := sanitized_length _ hok
      omega
    · exact Except.noConfusion h
  · intro s hspec
    have hsan : is_sanitized (pipeline s) = false := by
      cases hcase : is_sanitized (pipeline s) with
      | false => rfl
      | true => exact absurd (sanitized_specGrammar _ hcase) (by simp [hspec])
    unfold sanitize
    rw [hsan]
    simp

/-- C4 witness: the validator-to-grammar direction at `"abc"` and the
failure case at `"("` (whose pipeline result is empty). -/
theorem C4_witness :
    specGrammar ['a', 'b', 'c'] = true ∧ sanitize ['('] = .error .sanitizationError :=
  ⟨C4_accepted_name_grammar.2.1 ['a', 'b', 'c'] (by decide),
   C4_accepted_name_grammar.2.2 ['('] (by decide)⟩

end Booktool
